import Mathlib

/-!
# Single-level index generator

A shallow embedding of `src/main.cpp` and the properties of its build, sort,
write, read-back and lookup phases.

* A `std::string` is a list of bytes (`Str`).
* The input stream is a record of the file content, the read position and the
  two state flags the program can observe (`IStream`); its members follow the
  C++11 rules for `getline`, `tellg`, `seekg` and `clear`.
* `int` variables are integers; `lineCount++` is reduced into the 32-bit range
  (`wrapInt32`), a conversion to `size_t` is a reduction modulo `2 ^ 64`
  (`sizeT`).
* Exceptions are values of `Except`; the handler at the end of `main` prints one
  line (`Out.exception`). Memory is taken to be sufficient: no allocation fails.
* `std::sort` is a parameter of `main`: its algorithm is left open by the
  standard, so the theorems take any function that meets its contract
  (`StdSort`); `insertionSort` is one such function and runs the examples.
* The index file holds one object image per `Record` written, so it is a list
  of records. The read-back loop reads the bytes of an image over a live
  `Record`, whose destructor then frees strings that `myVector` owns: the
  behaviour of the program is undefined from there on. The run is cut at that
  point and marked (`Out.undefinedBehaviour`); nothing is said of what the
  program does after it.
* The input file and the index file are two different files (`Env`).

The definitions come first: the program, the contract of `std::sort`, the words
of the specification (`numLines`, `lineStarts`, `lineAt`, `fileLines`) and the
closed forms used in the proofs. The lemmas follow, then one theorem per claim.
-/

namespace IndexGenerator

/-! ## Strings -/

/-- A `std::string`: a sequence of bytes. -/
abbrev Str := List UInt8

/-- The bytes of an ASCII literal. -/
def ascii (s : String) : Str := s.toList.map (fun c => c.toNat.toUInt8)

/-- The delimiter of `getline`, the byte `'\n'`. -/
def newline : UInt8 := 10

/-- The standard exceptions the program can meet. -/
inductive Exc where
  | out_of_range
  | invalid_argument
  | length_error
  deriving DecidableEq, Repr

/-- The comparison `std::string::operator<`: bytes are compared as unsigned
values, the first difference decides, and a proper prefix is smaller. -/
def strLt : Str → Str → Bool
  | [], [] => false
  | [], _ :: _ => true
  | _ :: _, [] => false
  | a :: as, b :: bs => if a < b then true else if b < a then false else strLt as bs

/-- The member `std::string::substr(pos, n)`: throws `out_of_range` when `pos` is
past the end, else gives at most `n` bytes from `pos` on. -/
def substr (s : Str) (pos n : Nat) : Except Exc Str :=
  if pos > s.length then .error .out_of_range else .ok ((s.drop pos).take n)

/-- The conversion of an `int` to `size_t` (64 bits). -/
def sizeT (x : Int) : Nat := (x % 2 ^ 64).toNat

/-- The value an `int` holds once the result `x` of an addition is stored in it
(32 bits, two's complement). -/
def wrapInt32 (x : Int) : Int := (x + 2 ^ 31) % 2 ^ 32 - 2 ^ 31

/-- The digits of `v`, most significant first, on `w` positions, as the bytes
`'0'` and `'1'`. -/
def binDigits : Nat → Nat → Str
  | 0, _ => []
  | w + 1, v => binDigits w (v / 2) ++ [if v % 2 = 1 then 49 else 48]

/-- The text of `bitset<64>(v).to_string()`, where `v` converts to
`unsigned long long`. -/
def bitset64 (v : Int) : Str := binDigits 64 (v % 2 ^ 64).toNat

/-- The number a run of binary digits denotes. -/
def binValue (ds : Str) : Nat :=
  ds.foldl (fun acc d => 2 * acc + (if d = 49 then 1 else 0)) 0

/-- The predicate `isspace` of the C locale. -/
def isspace (c : UInt8) : Bool := c == 32 || (9 ≤ c && c ≤ 13)

/-- The predicate that holds of the two digits of base 2. -/
def isBinDigit (c : UInt8) : Bool := c == 48 || c == 49

/-- The call `std::stoi(str, nullptr, 2)`: white space is skipped, a sign is
taken, the longest run of binary digits is converted; no digit at all throws
`invalid_argument`, a value that does not fit an `int` throws `out_of_range`. -/
def stoi (str : Str) : Except Exc Int :=
  let s := str.dropWhile isspace
  let neg := s.head? == some 45
  let s := if s.head? == some 45 || s.head? == some 43 then s.drop 1 else s
  let ds := s.takeWhile isBinDigit
  if ds.isEmpty then .error .invalid_argument
  else
    let v : Int := binValue ds
    let x : Int := if neg then -v else v
    if x < -(2 ^ 31) || 2 ^ 31 - 1 < x then .error .out_of_range else .ok x

/-! ## Records -/

/-- The class `Record`: two strings, `key` and `offset`. -/
structure Record where
  key : Str
  offset : Str
  deriving DecidableEq, Repr

/-- The member `Record::operator<`: records compare by key. -/
def Record.lt (a b : Record) : Bool := strLt a.key b.key

/-! ## Input streams -/

/-- An input file stream opened in binary mode. -/
structure IStream where
  data : Str
  pos : Nat
  eofbit : Bool
  failbit : Bool
  deriving DecidableEq, Repr

/-- A stream just opened on a file with content `data`. -/
def IStream.opened (data : Str) : IStream := ⟨data, 0, false, false⟩

/-- The member `good()`. -/
def IStream.good (s : IStream) : Bool := !s.eofbit && !s.failbit

/-- The member `clear()`. -/
def IStream.clear (s : IStream) : IStream := { s with eofbit := false, failbit := false }

/-- The member `seekg(off, ios::beg)`: clears `eofbit`; does nothing on a failed
stream; a negative target sets `failbit`. -/
def IStream.seekg (s : IStream) (off : Int) : IStream :=
  let s := { s with eofbit := false }
  if s.failbit then s
  else if off < 0 then { s with failbit := true }
  else { s with pos := off.toNat }

/-- The member `tellg()`: the read position, or `-1` (and `failbit`) on a stream
that is not good. -/
def IStream.tellg (s : IStream) : IStream × Int :=
  if s.good then (s, (s.pos : Int)) else ({ s with failbit := true }, -1)

/-- The call `getline(stream, str)`: on a stream that is not good it sets
`failbit` and leaves `str`; else it takes the bytes up to the next newline, which
it consumes, or up to the end of the file, where it sets `eofbit`, and `failbit`
too when it took nothing. -/
def getline (s : IStream) (str : Str) : IStream × Str :=
  if s.good then
    let rest := s.data.drop s.pos
    let line := rest.takeWhile (fun c => c != newline)
    if line.length < rest.length then
      ({ s with pos := s.pos + line.length + 1 }, line)
    else
      ({ s with pos := s.pos + line.length, eofbit := true, failbit := line.isEmpty }, line)
  else ({ s with failbit := true }, str)

/-! ## The phases of `main` -/

/-- The loop `while(getline(myfile, currentLine)) lineCount++`. Each unit of fuel
pays for one call of `getline`; `none` means the fuel ran out. -/
def countLoop : Nat → IStream → Str → Int → Option (IStream × Str × Int)
  | 0, _, _, _ => none
  | fuel + 1, myfile, currentLine, lineCount =>
    let r := getline myfile currentLine
    if r.1.failbit then some (r.1, r.2, lineCount)
    else countLoop fuel r.1 r.2 (wrapInt32 (lineCount + 1))

/-- The largest size a `vector<Record>` accepts, for a `Record` of two 32-byte
strings. Any value between `2 ^ 31` and `2 ^ 64 - 2 ^ 31` gives the same runs. -/
def max_size : Nat := (2 ^ 63 - 1) / 64

/-- The call `myVector.reserve(lineCount)`. -/
def reserve (lineCount : Int) : Except Exc Unit :=
  if sizeT lineCount > max_size then .error .length_error else .ok ()

/-- The scan loop `for(lineCounter = 0; lineCounter < lineCount; lineCounter++)`,
with `n` the number of its iterations: `tellg`, `getline`, then a record of the
key `currentLine.substr(0, keyLength)` and the offset text is pushed. -/
def scanLoop : Nat → Int → IStream → Str → List Record → Except Exc (List Record)
  | 0, _, _, _, myVector => .ok myVector
  | n + 1, keyLength, myfile, currentLine, myVector =>
    let t := myfile.tellg
    let binary := bitset64 t.2
    let r := getline t.1 currentLine
    match substr r.2 0 (sizeT keyLength) with
    | .error e => .error e
    | .ok key => scanLoop n keyLength r.1 r.2 (myVector ++ [⟨key, binary⟩])

/-- The read-back loop `for(x = 0; x < lineCount; x++)`, with `n` the number of
its iterations. Each iteration makes `tempReadRecord` of two empty strings and
reads `sizeof(Record)` bytes of the file over it. When the file has no image
left the read fails, the record stays as it is and a copy of it is pushed. When
there is an image, its bytes replace the two live strings, and the destructor of
`tempReadRecord` frees what they then point to, which `myVector` owns: the
behaviour is undefined, and the result is `none`. -/
def decodeLoop : Nat → List Record → Option (List Record)
  | 0, _ => some []
  | n + 1, [] =>
    match decodeLoop n [] with
    | none => none
    | some readVector => some (⟨[], []⟩ :: readVector)
  | _ + 1, _ :: _ => none

/-- One iteration of the lookup loop: back to the start of the file, the offset
text converted by `stoi`, a seek to it, one `getline`, and the record of the
stored key and `tempLine.substr(keyLength, tempLine.length())`. -/
def lookupStep (instream : IStream) (keyLength : Int) (r : Record) :
    Except Exc (IStream × Record) :=
  let instream := (instream.clear).seekg 0
  let outputKey := r.key
  match stoi r.offset with
  | .error e => .error e
  | .ok i_dec =>
    let g := getline (instream.seekg i_dec) []
    match substr g.2 (sizeT keyLength) g.2.length with
    | .error e => .error e
    | .ok recordText => .ok (g.1, ⟨outputKey, recordText⟩)

/-- The lookup loop over `readVector`; an exception leaves the loop. -/
def lookupLoop : IStream → Int → List Record → List Record → Except Exc (List Record)
  | _, _, [], iViewVector => .ok iViewVector
  | instream, keyLength, r :: rest, iViewVector =>
    match lookupStep instream keyLength r with
    | .error e => .error e
    | .ok p => lookupLoop p.1 keyLength rest (iViewVector ++ [p.2])

/-! ## The program -/

/-- The command line after `atoi`: the argument count, the mode, the two file
names and the key length. -/
structure Args where
  argc : Nat
  programMode : String
  inputFileName : String
  outputFileName : String
  keyLength : Int
  deriving DecidableEq, Repr

/-- The files the run meets. `input` is the content of the input file, `none`
when it cannot be opened for reading; `indexWritable` and `indexReadable` tell
whether the index file opens for writing and for reading; `indexOld` is what an
index file that could not be rewritten holds, one entry per image;
`inputReopens` tells whether the input file opens again for the lookup. -/
structure Env where
  input : Option Str
  indexWritable : Bool
  indexReadable : Bool
  indexOld : List Record
  inputReopens : Bool
  deriving DecidableEq, Repr

/-- A line of standard output: a fixed text, the argument count, a line of the
listing (`key` then `offset` of a record of `iViewVector`), the record count, or
the message of the handler with the exception it caught. The last constructor is
not a line: it marks the point where the run reaches undefined behaviour, and
ends the description of the run. -/
inductive Out where
  | text (s : String)
  | argCount (argc : Nat)
  | line (bytes : Str)
  | recordCount (n : Nat)
  | exception (e : Exc)
  | undefinedBehaviour
  deriving DecidableEq, Repr

/-- An attempt to open a file. -/
inductive FileOp where
  | openInput
  | openIndexOut
  | openIndexIn
  | reopenInput
  deriving DecidableEq, Repr

/-- What a run leaves behind: the lines printed, the files it tried to open, and
the records written to the index file (`none` when it was not opened for
writing). -/
structure Run where
  out : List Out
  files : List FileOp
  index : Option (List Record)
  deriving DecidableEq, Repr

/-- The value of `a | b` on two conditions, each converted to `int`. -/
def bitOr (a b : Bool) : Nat := (if a then 1 else 0) ||| (if b then 1 else 0)

/-- The test `if(keyLength < 1 | keyLength > 24)`. -/
def keyLengthRejected (keyLength : Int) : Bool :=
  bitOr (decide (keyLength < 1)) (decide (keyLength > 24)) != 0

/-- The listing: header, one line per record of `iViewVector`, the count. -/
def listing (iViewVector : List Record) : List Out :=
  [.text "Listing file using index: "]
    ++ iViewVector.map (fun r => .line (r.key ++ r.offset))
    ++ [.text "Done listing file!", .recordCount iViewVector.length, .text "Ending program!"]

/-- The program from the sort on: sort, write the index file, and in mode `-l`
read it back, look every record up and print the listing. When the read-back
reaches undefined behaviour the run is cut there, after the index file was
opened for reading. -/
def afterScan (sort : (Record → Record → Bool) → List Record → List Record)
    (env : Env) (a : Args) (data : Str) (lineCount : Int) (myVector : List Record) : Run :=
  let sorted := sort Record.lt myVector
  let out1 : List Out := if env.indexWritable then [] else [.text "Unble to open file for output"]
  let index := if env.indexWritable then some sorted else none
  if a.programMode == "-l" then
    let stored := if env.indexWritable then sorted else env.indexOld
    let out2 : List Out := if env.indexReadable then [] else [.text "Unable to read from file!"]
    match (if env.indexReadable then decodeLoop lineCount.toNat stored else some []) with
    | none =>
      ⟨out1 ++ out2 ++ [.undefinedBehaviour], [.openInput, .openIndexOut, .openIndexIn], index⟩
    | some readVector =>
      let files := [.openInput, .openIndexOut, .openIndexIn, .reopenInput]
      if env.inputReopens then
        match lookupLoop (IStream.opened data) a.keyLength readVector [] with
        | .error e => ⟨out1 ++ out2 ++ [.exception e], files, index⟩
        | .ok iViewVector => ⟨out1 ++ out2 ++ listing iViewVector, files, index⟩
      else
        ⟨out1 ++ out2 ++ [.text "Error reopening input file for lookup!"] ++ listing [], files,
          index⟩
  else ⟨out1, [.openInput, .openIndexOut], index⟩

/-- The scan of the input file: the counting loop, `reserve`, then the scan loop
from the start of the file. The result is `none` only if the fuel of the
counting loop runs out; else it is the exception thrown, or `lineCount` and
`myVector`. -/
def scanPass (data : Str) (keyLength : Int) : Option (Except Exc (Int × List Record)) :=
  match countLoop (data.length + 1) (IStream.opened data) [] 0 with
  | none => none
  | some (myfile, currentLine, lineCount) =>
    match reserve lineCount with
    | .error e => some (.error e)
    | .ok _ =>
      match scanLoop lineCount.toNat keyLength ((myfile.clear).seekg 0) currentLine [] with
      | .error e => some (.error e)
      | .ok myVector => some (.ok (lineCount, myVector))

/-- The function `main`. The result is `none` only if the fuel of the counting
loop runs out. -/
def main (sort : (Record → Record → Bool) → List Record → List Record)
    (env : Env) (a : Args) : Option Run :=
  if a.argc != 5 then
    some ⟨[.text "Unexpected number of command line arguments, please try again ",
      .argCount a.argc], [], none⟩
  else if keyLengthRejected a.keyLength then
    some ⟨[.text "Invalid key length provided, please provide length between 1 and 24. "],
      [], none⟩
  else if a.programMode != "-c" && a.programMode != "-l" then
    some ⟨[.text "Invalid program mode provided. Expected either -c or -l. "], [], none⟩
  else
    match env.input with
    | none => some ⟨[.text "Unable to open file for read "], [.openInput], none⟩
    | some data =>
      match scanPass data a.keyLength with
      | none => none
      | some (.error e) => some ⟨[.exception e], [.openInput], none⟩
      | some (.ok (lineCount, myVector)) => some (afterScan sort env a data lineCount myVector)

/-! ## The contract of `std::sort` -/

/-- A comparison that `std::sort` accepts: a strict weak ordering. -/
structure StrictWeakOrdering (lt : Record → Record → Bool) : Prop where
  irrefl : ∀ a, lt a a = false
  trans : ∀ a b c, lt a b = true → lt b c = true → lt a c = true
  incomp : ∀ a b c, lt a b = false → lt b a = false → lt b c = false → lt c b = false →
    lt a c = false ∧ lt c a = false

/-- What the standard promises of `std::sort` on a strict weak ordering: the
result holds the same elements and no element is smaller than one before it. -/
def StdSort (sort : (Record → Record → Bool) → List Record → List Record) : Prop :=
  ∀ lt, StrictWeakOrdering lt → ∀ v,
    (sort lt v).Perm v ∧ (sort lt v).Pairwise (fun x y => lt y x = false)

/-- Insertion of `x` before the first element it is smaller than. -/
def insertSorted (lt : Record → Record → Bool) (x : Record) : List Record → List Record
  | [] => [x]
  | y :: ys => if lt x y then x :: y :: ys else y :: insertSorted lt x ys

/-- A sort that meets `StdSort`, used to run the program on examples. -/
def insertionSort (lt : Record → Record → Bool) : List Record → List Record
  | [] => []
  | x :: xs => insertSorted lt x (insertionSort lt xs)

/-! ## The words of the specification -/

/-- The number of lines of a file: its newline bytes, and one more when the file
is not empty and does not end in a newline. -/
def numLines (data : Str) : Nat :=
  data.count newline + (if data ≠ [] ∧ data.getLast? ≠ some newline then 1 else 0)

/-- The offsets at which a line begins, from position `i` on: `atStart` tells
whether position `i` follows a newline or is the start of the file. -/
def lineStartsFrom : Nat → Bool → Str → List Nat
  | _, _, [] => []
  | i, atStart, c :: cs =>
    (if atStart then [i] else []) ++ lineStartsFrom (i + 1) (c == newline) cs

/-- The offsets at which the lines of a file begin. -/
def lineStarts (data : Str) : List Nat := lineStartsFrom 0 true data

/-- The line read at an offset: the bytes from there up to, not including, the
next newline or the end of the file. -/
def lineAt (data : Str) (off : Nat) : Str :=
  (data.drop off).takeWhile (fun c => c != newline)

/-- The lines of a file, in file order. -/
def fileLines (data : Str) : List Str := (lineStarts data).map (lineAt data)

/-! ## Records of the scan and of the lookup -/

deriving instance DecidableEq for Except

/-- Closed form of the record the scan makes of the line that starts at `off`
(see `scanLoop_good`). -/
def recordAt (data : Str) (keyLength : Int) (off : Nat) : Record :=
  ⟨(lineAt data off).take (sizeT keyLength), bitset64 off⟩

/-- Closed form of `myVector` after the scan of a file with fewer than `2 ^ 31`
lines (see `scanPass_small`). -/
def builtRecords (data : Str) (keyLength : Int) : List Record :=
  (lineStarts data).map (recordAt data keyLength)

/-! ## The order of strings -/

theorem byte_eq_of_not_lt {a b : UInt8} (h1 : ¬ a < b) (h2 : ¬ b < a) : a = b := by
  have e1 : a < b ↔ a.toNat < b.toNat := Iff.rfl
  have e2 : b < a ↔ b.toNat < a.toNat := Iff.rfl
  rw [e1] at h1
  rw [e2] at h2
  exact UInt8.ext_iff.mpr (by omega)

theorem strLt_irrefl (a : Str) : strLt a a = false := by
  induction a with
  | nil => rfl
  | cons x xs ih => simp [strLt, UInt8.lt_irrefl, ih]

theorem strLt_trans : ∀ (a b c : Str), strLt a b = true → strLt b c = true → strLt a c = true
  | [], [], _, h, _ => by simp [strLt] at h
  | [], _ :: _, [], _, h => by simp [strLt] at h
  | [], _ :: _, _ :: _, _, _ => by simp [strLt]
  | _ :: _, [], _, h, _ => by simp [strLt] at h
  | _ :: _, _ :: _, [], _, h => by simp [strLt] at h
  | x :: xs, y :: ys, z :: zs, h1, h2 => by
    unfold strLt at h1 h2 ⊢
    by_cases hxy : x < y
    · by_cases hyz : y < z
      · simp [UInt8.lt_trans hxy hyz]
      · by_cases hzy : z < y
        · simp [hyz, hzy] at h2
        · have : y = z := byte_eq_of_not_lt hyz hzy
          subst this
          simp [hxy]
    · by_cases hyx : y < x
      · simp [hxy, hyx] at h1
      · have : x = y := byte_eq_of_not_lt hxy hyx
        subst this
        by_cases hxz : x < z
        · simp [hxz]
        · by_cases hzx : z < x
          · simp [hxz, hzx] at h2
          · simp only [hxy, hxz, hzx, if_false] at h1 h2 ⊢
            exact strLt_trans xs ys zs h1 h2

/-- Two strings neither of which is smaller than the other are equal: the order
of strings is total. -/
theorem strLt_total : ∀ (a b : Str), strLt a b = false → strLt b a = false → a = b
  | [], [], _, _ => rfl
  | [], _ :: _, h, _ => by simp [strLt] at h
  | _ :: _, [], _, h => by simp [strLt] at h
  | x :: xs, y :: ys, h1, h2 => by
    unfold strLt at h1 h2
    by_cases hxy : x < y
    · simp [hxy] at h1
    · by_cases hyx : y < x
      · simp [hyx] at h2
      · have : x = y := byte_eq_of_not_lt hxy hyx
        subst this
        simp only [hxy, if_false] at h1 h2
        rw [strLt_total xs ys h1 h2]

/-- The comparison of records is a strict weak ordering, as `std::sort` needs. -/
theorem Record.lt_strictWeak : StrictWeakOrdering Record.lt where
  irrefl a := strLt_irrefl a.key
  trans a b c := strLt_trans a.key b.key c.key
  incomp a b c h1 h2 h3 h4 := by
    have e1 : a.key = b.key := strLt_total _ _ h1 h2
    have e2 : b.key = c.key := strLt_total _ _ h3 h4
    simp [Record.lt, e1, e2, strLt_irrefl]

/-! ## Insertion sort meets the contract -/

theorem insertSorted_perm (lt : Record → Record → Bool) (x : Record) (l : List Record) :
    (insertSorted lt x l).Perm (x :: l) := by
  induction l with
  | nil => exact List.Perm.refl _
  | cons y ys ih =>
    unfold insertSorted
    split
    · exact List.Perm.refl _
    · exact (List.Perm.cons y ih).trans (List.Perm.swap x y ys)

theorem insertionSort_perm (lt : Record → Record → Bool) (l : List Record) :
    (insertionSort lt l).Perm l := by
  induction l with
  | nil => exact List.Perm.refl _
  | cons x xs ih => exact (insertSorted_perm lt x _).trans (List.Perm.cons x ih)

theorem insertSorted_pairwise {lt : Record → Record → Bool} (hlt : StrictWeakOrdering lt)
    (x : Record) (l : List Record) (hl : l.Pairwise (fun a b => lt b a = false)) :
    (insertSorted lt x l).Pairwise (fun a b => lt b a = false) := by
  induction l with
  | nil => simp [insertSorted]
  | cons y ys ih =>
    rw [List.pairwise_cons] at hl
    unfold insertSorted
    by_cases hxy : lt x y = true
    · rw [if_pos hxy]
      refine List.pairwise_cons.mpr ⟨?_, List.pairwise_cons.mpr hl⟩
      intro z hz
      have hzx : ¬ lt z x = true := by
        intro hzx
        have hzy : lt z y = true := hlt.trans z x y hzx hxy
        rcases List.mem_cons.mp hz with rfl | hz
        · rw [hlt.irrefl] at hzy
          exact Bool.noConfusion hzy
        · rw [hl.1 z hz] at hzy
          exact Bool.noConfusion hzy
      simpa using hzx
    · rw [if_neg hxy]
      refine List.pairwise_cons.mpr ⟨?_, ih hl.2⟩
      intro z hz
      rcases List.mem_cons.mp ((insertSorted_perm lt x ys).subset hz) with rfl | hz
      · simpa using hxy
      · exact hl.1 z hz

theorem insertionSort_stdSort : StdSort insertionSort := by
  intro lt hlt v
  refine ⟨insertionSort_perm lt v, ?_⟩
  induction v with
  | nil => simp [insertionSort]
  | cons x xs ih => exact insertSorted_pairwise hlt x _ ih

/-! ## Lines -/

theorem takeWhile_noNewline {l : Str} (hl : newline ∉ l) :
    l.takeWhile (fun c => c != newline) = l := by
  rw [List.takeWhile_eq_self_iff]
  intro c hc
  have : c ≠ newline := fun h => hl (h ▸ hc)
  simpa using this

theorem takeWhile_newline {l : Str} (hl : newline ∉ l) (t : Str) :
    (l ++ newline :: t).takeWhile (fun c => c != newline) = l := by
  induction l with
  | nil => simp
  | cons x xs ih =>
    have hx : x ≠ newline := fun h => hl (by simp [h])
    have hxs : newline ∉ xs := fun h => hl (List.mem_cons_of_mem _ h)
    simp [List.takeWhile_cons, hx, ih hxs]

/-- A string is empty, or a last line without newline, or a line, a newline and
the rest. -/
theorem rest_cases (rest : Str) :
    rest = [] ∨ (rest ≠ [] ∧ newline ∉ rest) ∨
      ∃ l t, newline ∉ l ∧ rest = l ++ newline :: t := by
  induction rest with
  | nil => exact Or.inl rfl
  | cons x xs ih =>
    right
    by_cases hx : x = newline
    · exact Or.inr ⟨[], xs, by simp, by simp [hx]⟩
    · rcases ih with h | ⟨_, h⟩ | ⟨l, t, hl, h⟩
      · subst h
        exact Or.inl ⟨by simp, by simpa using Ne.symm hx⟩
      · exact Or.inl ⟨by simp, by simpa using ⟨Ne.symm hx, h⟩⟩
      · exact Or.inr ⟨x :: l, t, by simpa using ⟨Ne.symm hx, hl⟩, by simp [h]⟩

theorem drop_after_line {data : Str} {pos : Nat} {l t : Str}
    (h : data.drop pos = l ++ newline :: t) : data.drop (pos + l.length + 1) = t := by
  have : data.drop (pos + l.length + 1) = (data.drop pos).drop (l.length + 1) := by
    rw [List.drop_drop]
    congr 1
  rw [this, h]
  simp

theorem getline_newline {data : Str} {pos : Nat} {l t : Str}
    (h : data.drop pos = l ++ newline :: t) (hl : newline ∉ l) (cur : Str) :
    getline ⟨data, pos, false, false⟩ cur = (⟨data, pos + l.length + 1, false, false⟩, l) := by
  simp [getline, IStream.good, h, takeWhile_newline hl]

theorem getline_last {data : Str} {pos : Nat} {l : Str}
    (h : data.drop pos = l) (hl : newline ∉ l) (cur : Str) :
    getline ⟨data, pos, false, false⟩ cur = (⟨data, pos + l.length, true, l.isEmpty⟩, l) := by
  simp [getline, IStream.good, h, takeWhile_noNewline hl]

theorem getline_notGood (s : IStream) (h : s.good = false) (cur : Str) :
    getline s cur = ({ s with failbit := true }, cur) := by
  simp [getline, h]

theorem numLines_nil : numLines [] = 0 := by simp [numLines]

theorem numLines_last {l : Str} (hne : l ≠ []) (hl : newline ∉ l) : numLines l = 1 := by
  have h1 : l.count newline = 0 := List.count_eq_zero_of_not_mem hl
  have h2 : l.getLast? ≠ some newline := by
    intro h
    exact hl (List.mem_of_getLast?_eq_some h)
  simp [numLines, h1, hne, h2]

theorem numLines_newline {l : Str} (hl : newline ∉ l) (t : Str) :
    numLines (l ++ newline :: t) = numLines t + 1 := by
  have h1 : l.count newline = 0 := List.count_eq_zero_of_not_mem hl
  unfold numLines
  rw [List.count_append, h1, List.count_cons_self]
  by_cases ht : t = []
  · subst ht
    simp
  · have : (l ++ newline :: t).getLast? = t.getLast? := by
      rw [List.getLast?_append_of_ne_nil _ (by simp)]
      cases t with
      | nil => exact absurd rfl ht
      | cons y ys => rw [List.getLast?_cons_cons]
    simp [this, ht]
    omega

theorem lineStartsFrom_skip (i : Nat) (b : Bool) {l : Str} (hl : newline ∉ l) (hne : l ≠ [])
    (t : Str) :
    lineStartsFrom i b (l ++ t) = (if b then [i] else []) ++ lineStartsFrom (i + l.length) false t := by
  induction l generalizing i b with
  | nil => exact absurd rfl hne
  | cons x xs ih =>
    have hx : (x == newline) = false := by
      have : x ≠ newline := fun h => hl (by simp [h])
      simpa using this
    have hxs : newline ∉ xs := fun h => hl (List.mem_cons_of_mem _ h)
    by_cases hnil : xs = []
    · subst hnil
      simp [lineStartsFrom, hx]
    · show lineStartsFrom i b (x :: (xs ++ t)) = _
      simp only [lineStartsFrom, hx]
      rw [ih (i + 1) false hxs hnil]
      simp [Nat.add_assoc, Nat.add_comm 1]

theorem lineStartsFrom_last (i : Nat) {l : Str} (hl : newline ∉ l) (hne : l ≠ []) :
    lineStartsFrom i true l = [i] := by
  have := lineStartsFrom_skip i true hl hne []
  simpa [lineStartsFrom] using this

theorem lineStartsFrom_newline (i : Nat) {l : Str} (hl : newline ∉ l) (t : Str) :
    lineStartsFrom i true (l ++ newline :: t) = i :: lineStartsFrom (i + l.length + 1) true t := by
  by_cases hne : l = []
  · subst hne
    simp [lineStartsFrom]
  · rw [lineStartsFrom_skip i true hl hne]
    simp [lineStartsFrom]

theorem lineStartsFrom_length (i : Nat) (rest : Str) :
    (lineStartsFrom i true rest).length = numLines rest := by
  generalize h : rest.length = n
  induction n using Nat.strong_induction_on generalizing i rest with
  | _ n ih =>
    rcases rest_cases rest with h0 | ⟨hne, hl⟩ | ⟨l, t, hl, ht⟩
    · subst h0
      simp [lineStartsFrom, numLines_nil]
    · rw [lineStartsFrom_last i hl hne, numLines_last hne hl]
      rfl
    · subst ht
      rw [lineStartsFrom_newline i hl, numLines_newline hl, List.length_cons,
        ih t.length (by subst h; simp; omega) _ t rfl]

/-! ## The counting loop and the scan loop -/

theorem wrapInt32_range (x : Int) : -(2 ^ 31) ≤ wrapInt32 x ∧ wrapInt32 x < 2 ^ 31 := by
  unfold wrapInt32
  omega

theorem wrapInt32_of_range {x : Int} (h1 : -(2 ^ 31) ≤ x) (h2 : x < 2 ^ 31) : wrapInt32 x = x := by
  unfold wrapInt32
  omega

theorem wrapInt32_add (x y : Int) : wrapInt32 (wrapInt32 x + y) = wrapInt32 (x + y) := by
  unfold wrapInt32
  omega

theorem wrapInt32_le {x : Int} (h : 0 ≤ x) : wrapInt32 x ≤ x := by
  unfold wrapInt32
  omega

theorem reserve_eq (lineCount : Int) (h1 : -(2 ^ 31) ≤ lineCount) (h2 : lineCount < 2 ^ 31) :
    reserve lineCount = if lineCount < 0 then .error .length_error else .ok () := by
  unfold reserve sizeT max_size
  by_cases h : lineCount < 0
  · have : (2 ^ 63 - 1) / 64 < (lineCount % 2 ^ 64).toNat := by omega
    rw [if_pos this, if_pos h]
  · have : ¬ (2 ^ 63 - 1) / 64 < (lineCount % 2 ^ 64).toNat := by omega
    rw [if_neg this, if_neg h]

/-- The counting loop ends within its fuel and counts the lines of the rest of
the file, in 32-bit arithmetic. -/
theorem countLoop_good (fuel : Nat) (data : Str) (pos : Nat) (rest : Str)
    (h : data.drop pos = rest) (hf : rest.length + 1 ≤ fuel) (cur : Str) (n : Int)
    (hn : wrapInt32 n = n) :
    ∃ s cur1, countLoop fuel ⟨data, pos, false, false⟩ cur n
        = some (s, cur1, wrapInt32 (n + numLines rest)) ∧ s.data = data := by
  induction fuel generalizing pos rest cur n with
  | zero => omega
  | succ fuel ih =>
    rcases rest_cases rest with h0 | ⟨hne, hl⟩ | ⟨l, t, hl, ht⟩
    · subst h0
      refine ⟨⟨data, pos + 0, true, true⟩, [], ?_, rfl⟩
      simp only [countLoop]
      rw [getline_last h (by simp)]
      simp [numLines_nil, hn]
    · cases fuel with
      | zero =>
        have : 0 < rest.length := List.length_pos.mpr hne
        omega
      | succ fuel =>
        have hemp : rest.isEmpty = false := by
          cases rest with
          | nil => exact absurd rfl hne
          | cons _ _ => rfl
        refine ⟨⟨data, pos + rest.length, true, true⟩, rest, ?_, rfl⟩
        simp only [countLoop]
        rw [getline_last h hl]
        simp only [hemp]
        rw [getline_notGood _ (by simp [IStream.good])]
        simp [numLines_last hne hl]
    · subst ht
      have hd := drop_after_line h
      have hlen : t.length + 1 ≤ fuel := by
        simp at hf
        omega
      obtain ⟨s, cur1, hs, hdata⟩ := ih (pos + l.length + 1) t hd hlen l (wrapInt32 (n + 1))
        (by rw [← Int.add_zero (wrapInt32 (n + 1)), wrapInt32_add]; simp)
      refine ⟨s, cur1, ?_, hdata⟩
      simp only [countLoop]
      rw [getline_newline h hl]
      simp only [Bool.false_eq_true, if_false]
      rw [hs, wrapInt32_add, numLines_newline hl]
      congr 3
      push_cast
      ring_nf

theorem substr_zero (s : Str) (n : Nat) : substr s 0 n = .ok (s.take n) := by
  simp [substr]

theorem scanLoop_succ (n : Nat) (keyLength : Int) (data : Str) (pos : Nat) (cur : Str) (acc : List Record) :
    scanLoop (n + 1) keyLength ⟨data, pos, false, false⟩ cur acc =
      scanLoop n keyLength (getline ⟨data, pos, false, false⟩ cur).1 (getline ⟨data, pos, false, false⟩ cur).2
        (acc ++ [⟨(getline ⟨data, pos, false, false⟩ cur).2.take (sizeT keyLength), bitset64 pos⟩]) := by
  rw [scanLoop]
  simp only [IStream.tellg, IStream.good, Bool.not_false, Bool.and_self, if_true, substr_zero]

theorem scanLoop_good (n : Nat) (keyLength : Int) (data : Str) (pos : Nat) (rest : Str)
    (h : data.drop pos = rest) (hn : n ≤ numLines rest) (cur : Str) (acc : List Record) :
    scanLoop n keyLength ⟨data, pos, false, false⟩ cur acc
      = .ok (acc ++ ((lineStartsFrom pos true rest).take n).map (recordAt data keyLength)) := by
  induction n generalizing pos rest cur acc with
  | zero => rw [scanLoop]; simp
  | succ n ih =>
    have hline : lineAt data pos = rest.takeWhile (fun c => c != newline) := by
      rw [lineAt, h]
    rcases rest_cases rest with h0 | ⟨hne, hl⟩ | ⟨l, t, hl, ht⟩
    · subst h0
      rw [numLines_nil] at hn
      omega
    · rw [numLines_last hne hl] at hn
      have hn0 : n = 0 := by omega
      subst hn0
      rw [scanLoop_succ, getline_last h hl, scanLoop, lineStartsFrom_last pos hl hne]
      rw [takeWhile_noNewline hl] at hline
      simp only [List.take_succ_cons, List.take_zero, List.map_cons, List.map_nil, recordAt, hline]
    · subst ht
      rw [numLines_newline hl] at hn
      rw [takeWhile_newline hl] at hline
      rw [scanLoop_succ, getline_newline h hl]
      simp only []
      rw [ih (pos + l.length + 1) t (drop_after_line h) (by omega), lineStartsFrom_newline pos hl]
      simp only [List.take_succ_cons, List.map_cons, recordAt, hline, List.append_assoc,
        List.singleton_append]

theorem wrapInt32_zero : wrapInt32 0 = 0 := wrapInt32_of_range (by omega) (by omega)

theorem scanPass_eq (data : Str) (keyLength : Int) :
    scanPass data keyLength =
      some (if wrapInt32 (numLines data) < 0 then .error .length_error
        else .ok (wrapInt32 (numLines data),
          ((lineStarts data).take (wrapInt32 (numLines data)).toNat).map
            (recordAt data keyLength))) := by
  obtain ⟨s, cur1, hs, hdata⟩ := countLoop_good (data.length + 1) data 0 data rfl (le_refl _) [] 0
    wrapInt32_zero
  have hr := wrapInt32_range (numLines data)
  have hle := wrapInt32_le (Int.ofNat_nonneg (numLines data))
  rw [Int.zero_add] at hs
  have hs2 : countLoop (data.length + 1) (IStream.opened data) [] 0 = some (s, cur1, wrapInt32 ↑(numLines data)) := hs
  have hseek : (s.clear).seekg 0 = ⟨data, 0, false, false⟩ := by
    simp only [IStream.clear, IStream.seekg, hdata]
    simp
  have hle2 : (wrapInt32 (numLines data)).toNat ≤ numLines data := by
    have : wrapInt32 (numLines data) ≤ (numLines data : Int) := hle
    omega
  have hres := reserve_eq _ hr.1 hr.2
  have hscan := scanLoop_good (wrapInt32 (numLines data)).toNat keyLength data 0 data rfl hle2 cur1 []
  unfold scanPass
  split
  · rename_i heq
    rw [hs2] at heq
    exact Option.noConfusion heq
  · rename_i myfile currentLine lineCount heq
    rw [hs2] at heq
    obtain ⟨rfl, rfl, rfl⟩ : s = myfile ∧ cur1 = currentLine ∧ wrapInt32 ↑(numLines data) = lineCount := by
      simpa using heq
    rw [hseek, hscan]
    by_cases hneg : wrapInt32 (numLines data) < 0
    · rw [if_pos hneg] at hres ⊢
      rw [hres]
    · rw [if_neg hneg] at hres ⊢
      rw [hres]
      rw [List.nil_append]
      show some (Except.ok (wrapInt32 ↑(numLines data), _)) = _
      rfl

/-! ## The offset text and its conversion -/

theorem binDigits_length (w v : Nat) : (binDigits w v).length = w := by
  induction w generalizing v with
  | zero => rfl
  | succ w ih => simp [binDigits, ih]

theorem binDigits_mem (w v : Nat) (c : UInt8) (h : c ∈ binDigits w v) : c = 48 ∨ c = 49 := by
  induction w generalizing v with
  | zero => simp [binDigits] at h
  | succ w ih =>
    simp only [binDigits, List.mem_append, List.mem_singleton] at h
    rcases h with h | h
    · exact ih _ h
    · split at h
      · exact Or.inr h
      · exact Or.inl h

theorem binValue_append (ds : Str) (d : UInt8) :
    binValue (ds ++ [d]) = 2 * binValue ds + (if d = 49 then 1 else 0) := by
  simp [binValue, List.foldl_append]

theorem binValue_binDigits (w v : Nat) : binValue (binDigits w v) = v % 2 ^ w := by
  induction w generalizing v with
  | zero => simp [binDigits, binValue, Nat.mod_one]
  | succ w ih =>
    rw [binDigits, binValue_append, ih, pow_succ', Nat.mod_mul]
    have h2 : v % 2 = 0 ∨ v % 2 = 1 := by omega
    rcases h2 with h | h
    · rw [h]
      simp
    · rw [h]
      simp
      omega

theorem binValue_bitset64 (off : Nat) (h : off < 2 ^ 64) : binValue (bitset64 off) = off := by
  unfold bitset64
  rw [binValue_binDigits]
  have : ((off : Int) % 2 ^ 64).toNat = off := by omega
  rw [this]
  exact Nat.mod_eq_of_lt h

theorem bitset64_ne_nil (v : Int) : bitset64 v ≠ [] := by
  intro h
  have := binDigits_length 64 (v % 2 ^ 64).toNat
  unfold bitset64 at h
  rw [h] at this
  exact absurd this (by decide)

/-- The conversion of a non-empty run of binary digits: its value if that fits an
`int`, else `out_of_range`. -/
theorem stoi_digits (ds : Str) (hne : ds ≠ []) (hd : ∀ c ∈ ds, c = 48 ∨ c = 49) :
    stoi ds = if (2 : Int) ^ 31 - 1 < (binValue ds : Int) then .error .out_of_range
      else .ok (binValue ds : Int) := by
  have hall : ds.takeWhile isBinDigit = ds := by
    rw [List.takeWhile_eq_self_iff]
    intro c hc
    rcases hd c hc with rfl | rfl <;> rfl
  cases ds with
  | nil => exact absurd rfl hne
  | cons c cs =>
    have hsp : isspace c = false := by
      rcases hd c (List.mem_cons_self _ _) with rfl | rfl <;> rfl
    have h45 : (some c == some (45 : UInt8)) = false := by
      rcases hd c (List.mem_cons_self _ _) with rfl | rfl <;> rfl
    have h43 : (some c == some (43 : UInt8)) = false := by
      rcases hd c (List.mem_cons_self _ _) with rfl | rfl <;> rfl
    have hdw : (c :: cs).dropWhile isspace = c :: cs := by
      rw [List.dropWhile_cons, hsp]
      rfl
    unfold stoi
    simp only [hdw, List.head?_cons, h45, h43, Bool.or_self, Bool.false_eq_true, if_false, hall]
    have hnn : (0 : Int) ≤ (binValue (c :: cs) : Int) := Int.ofNat_nonneg _
    have h1 : ¬ ((binValue (c :: cs) : Int) < -(2 ^ 31)) := by omega
    simp only [List.isEmpty_cons, Bool.false_eq_true, if_false, h1, decide_False, Bool.false_or,
      decide_eq_true_eq]

/-- An offset below `2 ^ 31` written by the scan is read back by the lookup. -/
theorem stoi_bitset64 (off : Nat) (h : off < 2 ^ 31) : stoi (bitset64 off) = .ok (off : Int) := by
  rw [stoi_digits _ (bitset64_ne_nil _) (binDigits_mem 64 _), binValue_bitset64 off (by omega)]
  have : ¬ ((2 : Int) ^ 31 - 1 < (off : Int)) := by omega
  rw [if_neg this]

/-- An offset from `2 ^ 31` on, written by the scan, makes the lookup throw. -/
theorem stoi_bitset64_large (off : Nat) (h1 : 2 ^ 31 ≤ off) (h2 : off < 2 ^ 64) :
    stoi (bitset64 off) = .error .out_of_range := by
  rw [stoi_digits _ (bitset64_ne_nil _) (binDigits_mem 64 _), binValue_bitset64 off h2]
  have : ((2 : Int) ^ 31 - 1 < (off : Int)) := by omega
  rw [if_pos this]

/-! ## The read-back loop and the lookup loop -/

theorem getline_line (data : Str) (pos : Nat) (cur : Str) :
    (getline ⟨data, pos, false, false⟩ cur).2 = lineAt data pos ∧
      (getline ⟨data, pos, false, false⟩ cur).1.data = data := by
  unfold getline lineAt
  simp only [IStream.good, Bool.not_false, Bool.and_self, if_true]
  split <;> exact ⟨rfl, rfl⟩

theorem seekg_start (s : IStream) : (s.clear).seekg 0 = ⟨s.data, 0, false, false⟩ := by
  simp only [IStream.clear, IStream.seekg]
  simp

theorem seekg_nat (data : Str) (off : Nat) :
    (⟨data, 0, false, false⟩ : IStream).seekg (off : Int) = ⟨data, off, false, false⟩ := by
  have : ¬ ((off : Int) < 0) := by omega
  simp only [IStream.seekg, Bool.false_eq_true, if_false, this, Int.toNat_ofNat]

/-- The lookup of a record does not depend on what the loop did before. -/
theorem lookupStep_opened (s : IStream) (keyLength : Int) (r : Record) :
    lookupStep s keyLength r = lookupStep (IStream.opened s.data) keyLength r := by
  unfold lookupStep
  rw [seekg_start, seekg_start]
  rfl

theorem lookupStep_data (s : IStream) (keyLength : Int) (r : Record) (p : IStream × Record)
    (h : lookupStep s keyLength r = .ok p) : p.1.data = s.data := by
  unfold lookupStep at h
  rw [seekg_start] at h
  split at h
  · exact Except.noConfusion h
  · rename_i i_dec _
    dsimp only at h
    split at h
    · exact Except.noConfusion h
    · injection h with h
      subst h
      show (getline _ []).1.data = s.data
      unfold getline IStream.seekg
      simp only [Bool.false_eq_true, if_false]
      split <;> split <;> (try split) <;> rfl

/-! ## The program in closed form -/

theorem bitOr_ne_zero (a b : Bool) : (bitOr a b != 0) = (a || b) := by
  cases a <;> cases b <;> rfl

theorem keyLengthRejected_iff (keyLength : Int) :
    keyLengthRejected keyLength = true ↔ keyLength < 1 ∨ keyLength > 24 := by
  unfold keyLengthRejected
  rw [bitOr_ne_zero]
  simp only [Bool.or_eq_true, decide_eq_true_eq]

theorem keyLengthRejected_false {keyLength : Int} (h1 : 1 ≤ keyLength) (h2 : keyLength ≤ 24) :
    keyLengthRejected keyLength = false := by
  rw [← Bool.not_eq_true, keyLengthRejected_iff]
  omega

theorem sizeT_key {keyLength : Int} (h1 : 1 ≤ keyLength) (h2 : keyLength ≤ 24) :
    sizeT keyLength = keyLength.toNat := by
  unfold sizeT
  omega

theorem lineStarts_length (data : Str) : (lineStarts data).length = numLines data :=
  lineStartsFrom_length 0 data

theorem scanPass_small (data : Str) (keyLength : Int) (h : numLines data < 2 ^ 31) :
    scanPass data keyLength = some (.ok ((numLines data : Int), builtRecords data keyLength)) := by
  have hw : wrapInt32 (numLines data) = (numLines data : Int) :=
    wrapInt32_of_range (by omega) (by omega)
  rw [scanPass_eq, hw, if_neg (by omega), Int.toNat_ofNat, ← lineStarts_length,
    List.take_length]
  rfl

theorem scanPass_large (data : Str) (keyLength : Int) (h : wrapInt32 (numLines data) < 0) :
    scanPass data keyLength = some (.error .length_error) := by
  rw [scanPass_eq, if_pos h]

/-- An accepted run on a readable file with fewer than `2 ^ 31` lines goes on
to the sort with one record per line. -/
theorem main_small (sort : (Record → Record → Bool) → List Record → List Record)
    (env : Env) (a : Args) (data : Str) (h5 : a.argc = 5) (hk1 : 1 ≤ a.keyLength)
    (hk2 : a.keyLength ≤ 24) (hm : a.programMode = "-c" ∨ a.programMode = "-l")
    (hin : env.input = some data) (h : numLines data < 2 ^ 31) :
    main sort env a
      = some (afterScan sort env a data (numLines data) (builtRecords data a.keyLength)) := by
  have c1 : (a.argc != 5) = false := by simp [h5]
  have c2 := keyLengthRejected_false hk1 hk2
  have c3 : (a.programMode != "-c" && a.programMode != "-l") = false := by
    rcases hm with hm | hm <;> simp [hm]
  unfold main
  rw [c1, c2, c3, hin]
  simp only [Bool.false_eq_true, if_false]
  rw [scanPass_small data a.keyLength h]

/-! ## The line starts -/

theorem lineStartsFrom_bounds (i : Nat) (b : Bool) (rest : Str) (o : Nat)
    (h : o ∈ lineStartsFrom i b rest) : i ≤ o ∧ o < i + rest.length := by
  induction rest generalizing i b with
  | nil => simp [lineStartsFrom] at h
  | cons c cs ih =>
    simp only [lineStartsFrom, List.mem_append] at h
    rcases h with h | h
    · cases b
      · simp at h
      · simp at h
        subst h
        simp
    · have := ih (i + 1) (c == newline) h
      simp only [List.length_cons]
      omega

theorem lineStarts_lt_length (data : Str) (o : Nat) (h : o ∈ lineStarts data) :
    o < data.length := by
  have := lineStartsFrom_bounds 0 true data o h
  omega

theorem lineStartsFrom_head (i : Nat) (rest : Str) :
    (lineStartsFrom i true rest).head? = if rest = [] then none else some i := by
  cases rest with
  | nil => rfl
  | cons c cs => simp [lineStartsFrom]

/-- Each line start is the one before it, plus the length of the line that starts
there, plus one for its newline. -/
theorem lineStartsFrom_chain (data : Str) (pos : Nat) (rest : Str) (h : data.drop pos = rest) :
    List.Chain' (fun x y => y = x + (lineAt data x).length + 1) (lineStartsFrom pos true rest) := by
  generalize hn : rest.length = n
  induction n using Nat.strong_induction_on generalizing pos rest with
  | _ n ih =>
    rcases rest_cases rest with h0 | ⟨hne, hl⟩ | ⟨l, t, hl, ht⟩
    · subst h0
      simp [lineStartsFrom]
    · rw [lineStartsFrom_last pos hl hne]
      exact List.chain'_singleton _
    · subst ht
      have hline : lineAt data pos = l := by
        rw [lineAt, h, takeWhile_newline hl]
      rw [lineStartsFrom_newline pos hl, List.chain'_cons']
      refine ⟨?_, ih t.length (by subst hn; simp; omega) _ t (drop_after_line h) rfl⟩
      intro y hy
      rw [lineStartsFrom_head] at hy
      split at hy
      · exact Option.noConfusion hy
      · have : pos + l.length + 1 = y := by simpa using hy
        rw [hline, ← this]

theorem lineStarts_chain (data : Str) :
    List.Chain' (fun x y => y = x + (lineAt data x).length + 1) (lineStarts data) :=
  lineStartsFrom_chain data 0 data rfl

theorem chain_increasing (data : Str) (l : List Nat)
    (h : List.Chain' (fun x y => y = x + (lineAt data x).length + 1) l) :
    l.Pairwise (fun x y => x < y) := by
  rw [← List.chain'_iff_pairwise]
  exact h.imp (fun h => by omega)

theorem lineStarts_increasing (data : Str) : (lineStarts data).Pairwise (fun x y => x < y) :=
  chain_increasing data _ (lineStarts_chain data)

theorem lineStarts_nodup (data : Str) : (lineStarts data).Nodup :=
  (lineStarts_increasing data).imp (fun h => Nat.ne_of_lt h)

/-! ## The branches of `main` -/

theorem main_argc (sort : (Record → Record → Bool) → List Record → List Record)
    (env : Env) (a : Args) (h : a.argc ≠ 5) :
    main sort env a = some ⟨[.text "Unexpected number of command line arguments, please try again ",
      .argCount a.argc], [], none⟩ := by
  have c1 : (a.argc != 5) = true := by simpa using h
  unfold main
  rw [c1, if_pos rfl]

theorem main_keyLength (sort : (Record → Record → Bool) → List Record → List Record)
    (env : Env) (a : Args) (h5 : a.argc = 5) (h : keyLengthRejected a.keyLength = true) :
    main sort env a = some
      ⟨[.text "Invalid key length provided, please provide length between 1 and 24. "], [], none⟩ := by
  have c1 : (a.argc != 5) = false := by simp [h5]
  unfold main
  rw [c1, h, if_neg Bool.false_ne_true, if_pos rfl]

theorem main_mode (sort : (Record → Record → Bool) → List Record → List Record)
    (env : Env) (a : Args) (h5 : a.argc = 5) (hk : keyLengthRejected a.keyLength = false)
    (h : a.programMode ≠ "-c" ∧ a.programMode ≠ "-l") :
    main sort env a = some
      ⟨[.text "Invalid program mode provided. Expected either -c or -l. "], [], none⟩ := by
  have c1 : (a.argc != 5) = false := by simp [h5]
  have c3 : (a.programMode != "-c" && a.programMode != "-l") = true := by simp [h.1, h.2]
  unfold main
  rw [c1, hk, c3, if_neg Bool.false_ne_true, if_neg Bool.false_ne_true, if_pos rfl]

theorem main_unreadable (sort : (Record → Record → Bool) → List Record → List Record)
    (env : Env) (a : Args) (h5 : a.argc = 5) (hk : keyLengthRejected a.keyLength = false)
    (hm : a.programMode = "-c" ∨ a.programMode = "-l") (hin : env.input = none) :
    main sort env a = some ⟨[.text "Unable to open file for read "], [.openInput], none⟩ := by
  have c1 : (a.argc != 5) = false := by simp [h5]
  have c3 : (a.programMode != "-c" && a.programMode != "-l") = false := by
    rcases hm with hm | hm <;> simp [hm]
  unfold main
  rw [c1, hk, c3, hin, if_neg Bool.false_ne_true, if_neg Bool.false_ne_true,
    if_neg Bool.false_ne_true]

/-- An accepted run on a readable file: `reserve` throws when the 32-bit line
count is negative, else the run goes on to the sort. -/
theorem main_accepted (sort : (Record → Record → Bool) → List Record → List Record)
    (env : Env) (a : Args) (data : Str) (h5 : a.argc = 5)
    (hk : keyLengthRejected a.keyLength = false)
    (hm : a.programMode = "-c" ∨ a.programMode = "-l") (hin : env.input = some data) :
    main sort env a = some (if wrapInt32 (numLines data) < 0
      then ⟨[.exception .length_error], [.openInput], none⟩
      else afterScan sort env a data (wrapInt32 (numLines data))
        (((lineStarts data).take (wrapInt32 (numLines data)).toNat).map
          (recordAt data a.keyLength))) := by
  have c1 : (a.argc != 5) = false := by simp [h5]
  have c3 : (a.programMode != "-c" && a.programMode != "-l") = false := by
    rcases hm with hm | hm <;> simp [hm]
  unfold main
  rw [c1, hk, c3, hin, if_neg Bool.false_ne_true, if_neg Bool.false_ne_true,
    if_neg Bool.false_ne_true]
  show (match scanPass data a.keyLength with
    | none => none
    | some (.error e) => some (Run.mk [.exception e] [.openInput] none)
    | some (.ok (lineCount, myVector)) => some (afterScan sort env a data lineCount myVector)) = _
  rw [scanPass_eq]
  by_cases hneg : wrapInt32 (numLines data) < 0
  · rw [if_pos hneg, if_pos hneg]
  · rw [if_neg hneg, if_neg hneg]

theorem afterScan_files (sort : (Record → Record → Bool) → List Record → List Record)
    (env : Env) (a : Args) (data : Str) (lineCount : Int) (v : List Record) :
    (afterScan sort env a data lineCount v).files ≠ [] := by
  unfold afterScan
  dsimp only
  split
  · split
    · exact List.cons_ne_nil _ _
    · split
      · split <;> exact List.cons_ne_nil _ _
      · exact List.cons_ne_nil _ _
  · exact List.cons_ne_nil _ _

theorem afterScan_index (sort : (Record → Record → Bool) → List Record → List Record)
    (env : Env) (a : Args) (data : Str) (lineCount : Int) (v : List Record) :
    (afterScan sort env a data lineCount v).index
      = if env.indexWritable then some (sort Record.lt v) else none := by
  unfold afterScan
  dsimp only
  split
  · split
    · rfl
    · split
      · split <;> rfl
      · rfl
  · rfl

/-- Every run ends: `main` gives a result on every command line and every state
of the files. -/
theorem main_total (sort : (Record → Record → Bool) → List Record → List Record)
    (env : Env) (a : Args) : ∃ run, main sort env a = some run := by
  by_cases h5 : a.argc = 5
  · cases hk : keyLengthRejected a.keyLength with
    | true => exact ⟨_, main_keyLength sort env a h5 hk⟩
    | false =>
      by_cases hm : a.programMode = "-c" ∨ a.programMode = "-l"
      · cases hin : env.input with
        | none => exact ⟨_, main_unreadable sort env a h5 hk hm hin⟩
        | some data => exact ⟨_, main_accepted sort env a data h5 hk hm hin⟩
      · exact ⟨_, main_mode sort env a h5 hk (not_or.mp hm)⟩
  · exact ⟨_, main_argc sort env a h5⟩

theorem take_min_length (l : Str) (n : Nat) : l.take (min n l.length) = l.take n := by
  rcases Nat.le_total n l.length with h | h
  · rw [Nat.min_eq_left h]
  · rw [Nat.min_eq_right h, List.take_of_length_le h, List.take_of_length_le (le_refl _)]

theorem scanLoop_no_exception (n : Nat) (keyLength : Int) (s : IStream) (cur : Str)
    (acc : List Record) : ∃ v, scanLoop n keyLength s cur acc = .ok v := by
  induction n generalizing s cur acc with
  | zero => exact ⟨acc, by rw [scanLoop]⟩
  | succ n ih =>
    rw [scanLoop]
    simp only [substr_zero]
    exact ih _ _ _

theorem builtRecords_keys (data : Str) (keyLength : Int) (h1 : 1 ≤ keyLength)
    (h2 : keyLength ≤ 24) :
    (builtRecords data keyLength).map (fun r => r.key)
      = (fileLines data).map (fun l => l.take (min keyLength.toNat l.length)) := by
  unfold builtRecords fileLines
  rw [List.map_map, List.map_map]
  apply List.map_congr_left
  intro o _
  simp only [Function.comp, recordAt, take_min_length, sizeT_key h1 h2]

theorem take_lineStarts_offsets (data : Str) (keyLength : Int) (n : Nat) :
    (((lineStarts data).take n).map (recordAt data keyLength)).map (fun r => r.offset)
      = ((lineStarts data).take n).map (fun o : Nat => bitset64 (o : Int)) := by
  rw [List.map_map]
  apply List.map_congr_left
  intro o _
  simp only [Function.comp, recordAt]

theorem take_lineStarts_values (data : Str) (keyLength : Int) (n : Nat)
    (hsize : data.length < 2 ^ 64) :
    (((lineStarts data).take n).map (recordAt data keyLength)).map (fun r => binValue r.offset)
      = (lineStarts data).take n := by
  rw [List.map_map]
  conv_rhs => rw [← List.map_id ((lineStarts data).take n)]
  apply List.map_congr_left
  intro o ho
  have := lineStarts_lt_length data o (List.mem_of_mem_take ho)
  simp only [Function.comp, recordAt, id]
  exact binValue_bitset64 o (by omega)

theorem take_lineStarts_head (data : Str) (n : Nat) (hne : (lineStarts data).take n ≠ []) :
    ((lineStarts data).take n).head? = some 0 := by
  cases n with
  | zero => simp at hne
  | succ n =>
    unfold lineStarts at hne ⊢
    cases data with
    | nil => simp [lineStartsFrom] at hne
    | cons c cs => simp [lineStartsFrom]

theorem take_lineStarts_chain (data : Str) (n : Nat) :
    List.Chain' (fun x y => y = x + (lineAt data x).length + 1) ((lineStarts data).take n) :=
  List.Chain'.take (lineStarts_chain data) n

theorem seekg_opened (data : Str) (off : Nat) :
    (IStream.opened data).seekg (off : Int) = ⟨data, off, false, false⟩ :=
  seekg_nat data off

theorem builtRecords_offsets (data : Str) (keyLength : Int) :
    (builtRecords data keyLength).map (fun r => r.offset)
      = (lineStarts data).map (fun o : Nat => bitset64 (o : Int)) := by
  have h := take_lineStarts_offsets data keyLength (lineStarts data).length
  rw [List.take_length] at h
  exact h

theorem builtRecords_values (data : Str) (keyLength : Int) (hsize : data.length < 2 ^ 64) :
    (builtRecords data keyLength).map (fun r => binValue r.offset) = lineStarts data := by
  have h := take_lineStarts_values data keyLength (lineStarts data).length hsize
  rw [List.take_length] at h
  exact h

theorem nodup_of_map_nodup {α β : Type} (f : α → β) (l : List α) (h : (l.map f).Nodup) :
    l.Nodup := by
  induction l with
  | nil => exact List.nodup_nil
  | cons x xs ih =>
    rw [List.map_cons, List.nodup_cons] at h
    rw [List.nodup_cons]
    exact ⟨fun hx => h.1 (List.mem_map_of_mem f hx), ih h.2⟩

theorem numLines_replicate (n : Nat) (hn : 0 < n) : numLines (List.replicate n newline) = n := by
  unfold numLines
  have hlast : (List.replicate n newline).getLast? = some newline := by
    cases n with
    | zero => omega
    | succ n =>
      rw [List.getLast?_eq_getLast _ (by simp)]
      congr 1
      exact List.eq_of_mem_replicate (List.getLast_mem _)
  rw [List.count_replicate_self, hlast]
  simp

theorem wrapInt32_overflow : wrapInt32 ((2 ^ 31 : Nat) : Int) < 0 := by
  unfold wrapInt32
  omega

theorem lookupStep_stoi_error (s : IStream) (keyLength : Int) (r : Record) (e : Exc)
    (h : stoi r.offset = .error e) : lookupStep s keyLength r = .error e := by
  unfold lookupStep
  rw [h]

theorem scanResult_small (data : Str) (keyLength : Int) (hN : numLines data < 2 ^ 31) :
    ∃ built, (if wrapInt32 (numLines data) < 0 then Except.error Exc.length_error
        else Except.ok (wrapInt32 (numLines data),
          ((lineStarts data).take (wrapInt32 (numLines data)).toNat).map
            (recordAt data keyLength)))
      = Except.ok ((numLines data : Int), built) ∧ built.length = numLines data := by
  have hw : wrapInt32 (numLines data) = (numLines data : Int) :=
    wrapInt32_of_range (by omega) (by omega)
  refine ⟨builtRecords data keyLength, ?_, ?_⟩
  · rw [hw, if_neg (by omega), Int.toNat_ofNat, ← lineStarts_length, List.take_length]
    rfl
  · rw [builtRecords, List.length_map, lineStarts_length]

/-! ## The read-back and a file with a late second line -/

/-- A run in mode `-l` whose index file is written and opens for reading, from
the sort on, when the read-back meets an image. -/
theorem afterScan_undefined (sort : (Record → Record → Bool) → List Record → List Record)
    (env : Env) (a : Args) (data : Str) (n : Nat) (v : List Record)
    (hw : env.indexWritable = true) (hr : env.indexReadable = true)
    (hmode : a.programMode = "-l") (hdec : decodeLoop n (sort Record.lt v) = none) :
    afterScan sort env a data (n : Int) v
      = ⟨[.undefinedBehaviour], [.openInput, .openIndexOut, .openIndexIn],
          some (sort Record.lt v)⟩ := by
  have hm : (a.programMode == "-l") = true := by simp [hmode]
  unfold afterScan
  simp only [hw, hr, hm, if_true, Int.toNat_ofNat, hdec, List.nil_append]

theorem not_mem_replicate_ne (m : Nat) (c : UInt8) (hc : c ≠ newline) :
    newline ∉ List.replicate m c := by
  intro h
  exact hc (List.eq_of_mem_replicate h).symm

theorem twoLines_lineStarts (m : Nat) :
    lineStarts (List.replicate m 97 ++ newline :: (List.replicate 16 98 ++ [newline]))
      = [0, m + 1] := by
  unfold lineStarts
  rw [lineStartsFrom_newline 0 (not_mem_replicate_ne m 97 (by decide)), List.length_replicate,
    Nat.zero_add, lineStartsFrom_newline (m + 1) (not_mem_replicate_ne 16 98 (by decide))]
  rfl

theorem twoLines_numLines (m : Nat) :
    numLines (List.replicate m 97 ++ newline :: (List.replicate 16 98 ++ [newline])) = 2 := by
  rw [← lineStarts_length, twoLines_lineStarts]
  rfl

theorem twoLines_first (m : Nat) :
    lineAt (List.replicate m 97 ++ newline :: (List.replicate 16 98 ++ [newline])) 0
      = List.replicate m 97 := by
  unfold lineAt
  rw [List.drop_zero, takeWhile_newline (not_mem_replicate_ne m 97 (by decide))]

theorem twoLines_second (m : Nat) :
    lineAt (List.replicate m 97 ++ newline :: (List.replicate 16 98 ++ [newline])) (m + 1)
      = List.replicate 16 98 := by
  unfold lineAt
  have h : (List.replicate m (97 : UInt8) ++ newline :: (List.replicate 16 98 ++ [newline])).drop
      (0 + (List.replicate m (97 : UInt8)).length + 1)
      = List.replicate 16 98 ++ [newline] := drop_after_line (List.drop_zero _)
  rw [List.length_replicate, Nat.zero_add] at h
  rw [h, takeWhile_newline (not_mem_replicate_ne 16 98 (by decide))]

/-- The scan of a file of two lines, `m` bytes `a` and then 16 bytes `b`, with
key length 16: the second record holds the offset `m + 1`. -/
theorem twoLines_scan (m : Nat) (hm : 16 ≤ m) :
    scanPass (List.replicate m 97 ++ newline :: (List.replicate 16 98 ++ [newline])) 16
      = some (.ok (2, [⟨List.replicate 16 97, bitset64 0⟩,
          ⟨List.replicate 16 98, bitset64 ((m + 1 : Nat) : Int)⟩])) := by
  have hN : numLines (List.replicate m 97 ++ newline :: (List.replicate 16 98 ++ [newline]))
      < 2 ^ 31 := by
    rw [twoLines_numLines]
    decide
  have hk : sizeT 16 = 16 := by decide
  have ht : (List.replicate m (97 : UInt8)).take 16 = List.replicate 16 97 := by
    rw [List.take_replicate, Nat.min_eq_left hm]
  have ht2 : (List.replicate 16 (98 : UInt8)).take 16 = List.replicate 16 98 := by
    rw [List.take_replicate, Nat.min_self]
  rw [scanPass_small _ 16 hN, twoLines_numLines]
  unfold builtRecords
  rw [twoLines_lineStarts]
  simp only [List.map_cons, List.map_nil, recordAt, twoLines_first, twoLines_second, hk, ht, ht2,
    Nat.cast_zero]
  rfl

/-! ## The claims -/

set_option maxRecDepth 100000 in
/-- C1: on the file `banana`, `apple`, `cherry` with key length 1 the run in mode
`-l` writes the index, opens it again and reaches undefined behaviour in the
read-back loop with nothing printed; and so does every run in mode `-l` on a
file that has a line (and fewer than `2 ^ 31`): the listing is not reached. -/
theorem listing_not_reached :
    main insertionSort ⟨some (ascii "banana\napple\ncherry\n"), true, true, [], true⟩
        ⟨5, "-l", "in.txt", "out.idx", 1⟩
      = some ⟨[.undefinedBehaviour], [.openInput, .openIndexOut, .openIndexIn],
          some [⟨ascii "a", bitset64 7⟩, ⟨ascii "b", bitset64 0⟩, ⟨ascii "c", bitset64 13⟩]⟩ ∧
    ∀ (sort : (Record → Record → Bool) → List Record → List Record) (env : Env) (a : Args)
      (data : Str), StdSort sort → env.input = some data → env.indexWritable = true →
      env.indexReadable = true → a.argc = 5 → a.programMode = "-l" → 1 ≤ a.keyLength →
      a.keyLength ≤ 24 → 0 < numLines data → numLines data < 2 ^ 31 →
      ∃ run, main sort env a = some run ∧ run.out = [Out.undefinedBehaviour] ∧
        run.files = [.openInput, .openIndexOut, .openIndexIn] := by
  refine ⟨by decide, ?_⟩
  intro sort env a data hsort hin hw hr h5 hmode h1 h2 hpos hN
  have hperm := (hsort Record.lt Record.lt_strictWeak (builtRecords data a.keyLength)).1
  have hlen : (sort Record.lt (builtRecords data a.keyLength)).length = numLines data := by
    rw [hperm.length_eq, builtRecords, List.length_map, lineStarts_length]
  have hdec : decodeLoop (numLines data) (sort Record.lt (builtRecords data a.keyLength))
      = none := by
    cases hs : sort Record.lt (builtRecords data a.keyLength) with
    | nil =>
      rw [hs] at hlen
      simp at hlen
      omega
    | cons x xs =>
      obtain ⟨n, hn⟩ : ∃ n, numLines data = n + 1 := ⟨numLines data - 1, by omega⟩
      rw [hn]
      rfl
  refine ⟨_, main_small sort env a data h5 h1 h2 (Or.inr hmode) hin hN, ?_, ?_⟩
  · rw [afterScan_undefined sort env a data (numLines data) _ hw hr hmode hdec]
  · rw [afterScan_undefined sort env a data (numLines data) _ hw hr hmode hdec]

/-- C2, amended: on a file with fewer than `2 ^ 31` lines the scan builds one
record per line, in file order; the sequence written to the index file is the
sorted one, it has as many entries as the file has lines, and its offsets are
the line starts of the file, each once. -/
theorem one_record_per_line (sort : (Record → Record → Bool) → List Record → List Record)
    (hsort : StdSort sort) (env : Env) (a : Args) (data : Str)
    (hin : env.input = some data) (hw : env.indexWritable = true) (h5 : a.argc = 5)
    (hm : a.programMode = "-c" ∨ a.programMode = "-l")
    (h1 : 1 ≤ a.keyLength) (h2 : a.keyLength ≤ 24) (hN : numLines data < 2 ^ 31) :
    ∃ run built, scanPass data a.keyLength = some (.ok ((numLines data : Int), built)) ∧
      built.length = numLines data ∧
      built.map (fun r => r.offset) = (lineStarts data).map (fun o : Nat => bitset64 (o : Int)) ∧
      main sort env a = some run ∧ run.index = some (sort Record.lt built) ∧
      (sort Record.lt built).length = numLines data ∧
      ((sort Record.lt built).map (fun r => r.offset)).Perm
        ((lineStarts data).map (fun o : Nat => bitset64 (o : Int))) ∧
      (lineStarts data).Nodup ∧ (lineStarts data).length = numLines data ∧
      (data.length < 2 ^ 64 →
        ((sort Record.lt built).map (fun r => binValue r.offset)).Perm (lineStarts data) ∧
        ((sort Record.lt built).map (fun r => r.offset)).Nodup) := by
  have hs := hsort Record.lt Record.lt_strictWeak (builtRecords data a.keyLength)
  have hlen : (builtRecords data a.keyLength).length = numLines data := by
    rw [builtRecords, List.length_map, lineStarts_length]
  refine ⟨_, builtRecords data a.keyLength, scanPass_small data a.keyLength hN, hlen,
    builtRecords_offsets data a.keyLength, main_small sort env a data h5 h1 h2 hm hin hN, ?_, ?_,
    ?_, lineStarts_nodup data, lineStarts_length data, ?_⟩
  · rw [afterScan_index, hw, if_pos rfl]
  · rw [hs.1.length_eq, hlen]
  · rw [← builtRecords_offsets data a.keyLength]
    exact hs.1.map _
  · intro hsize
    have hp : ((sort Record.lt (builtRecords data a.keyLength)).map
        (fun r => binValue r.offset)).Perm (lineStarts data) := by
      rw [← builtRecords_values data a.keyLength hsize]
      exact hs.1.map _
    refine ⟨hp, ?_⟩
    have hnd : ((sort Record.lt (builtRecords data a.keyLength)).map
        (fun r => binValue r.offset)).Nodup := hp.nodup_iff.mpr (lineStarts_nodup data)
    have hmm : ((sort Record.lt (builtRecords data a.keyLength)).map (fun r => r.offset)).map
        binValue = (sort Record.lt (builtRecords data a.keyLength)).map
          (fun r => binValue r.offset) := by
      rw [List.map_map]
      rfl
    rw [← hmm] at hnd
    exact nodup_of_map_nodup binValue _ hnd

set_option maxRecDepth 100000 in
/-- Witness of C2 as amended: the file `ab`, an empty line, `cd` without final
newline has three lines, starting at 0, 3 and 4, and three records are written. -/
theorem one_record_per_line_witness :
    (∃ run built, scanPass (ascii "ab\n\ncd") 2
        = some (.ok ((numLines (ascii "ab\n\ncd") : Int), built)) ∧
      built.length = numLines (ascii "ab\n\ncd") ∧
      built.map (fun r => r.offset)
        = (lineStarts (ascii "ab\n\ncd")).map (fun o : Nat => bitset64 (o : Int)) ∧
      main insertionSort ⟨some (ascii "ab\n\ncd"), true, true, [], true⟩
        ⟨5, "-c", "in.txt", "out.idx", 2⟩ = some run ∧
      run.index = some (insertionSort Record.lt built) ∧
      (insertionSort Record.lt built).length = numLines (ascii "ab\n\ncd") ∧
      ((insertionSort Record.lt built).map (fun r => r.offset)).Perm
        ((lineStarts (ascii "ab\n\ncd")).map (fun o : Nat => bitset64 (o : Int))) ∧
      (lineStarts (ascii "ab\n\ncd")).Nodup ∧
      (lineStarts (ascii "ab\n\ncd")).length = numLines (ascii "ab\n\ncd") ∧
      ((ascii "ab\n\ncd").length < 2 ^ 64 →
        ((insertionSort Record.lt built).map (fun r => binValue r.offset)).Perm
          (lineStarts (ascii "ab\n\ncd")) ∧
        ((insertionSort Record.lt built).map (fun r => r.offset)).Nodup)) ∧
    numLines (ascii "ab\n\ncd") = 3 ∧ lineStarts (ascii "ab\n\ncd") = [0, 3, 4] ∧
    main insertionSort ⟨some (ascii "ab\n\ncd"), true, true, [], true⟩
        ⟨5, "-c", "in.txt", "out.idx", 2⟩
      = some ⟨[], [.openInput, .openIndexOut],
          some [⟨[], bitset64 3⟩, ⟨ascii "ab", bitset64 0⟩, ⟨ascii "cd", bitset64 4⟩]⟩ :=
  ⟨one_record_per_line insertionSort insertionSort_stdSort
      ⟨some (ascii "ab\n\ncd"), true, true, [], true⟩ ⟨5, "-c", "in.txt", "out.idx", 2⟩
      (ascii "ab\n\ncd") rfl rfl rfl (Or.inl rfl) (by decide) (by decide) (by decide),
    by decide, by decide, by decide⟩

/-- C2 as stated fails: on a file of `2 ^ 31` empty lines the line counter
overflows, `reserve` throws, no record is built and no index is written. -/
theorem one_record_per_line_counterexample :
    numLines (List.replicate (2 ^ 31) newline) = 2 ^ 31 ∧
    scanPass (List.replicate (2 ^ 31) newline) 1 = some (.error .length_error) ∧
    main insertionSort ⟨some (List.replicate (2 ^ 31) newline), true, true, [], true⟩
        ⟨5, "-c", "in.txt", "out.idx", 1⟩
      = some ⟨[.exception .length_error], [.openInput], none⟩ := by
  have hnum : numLines (List.replicate (2 ^ 31) newline) = 2 ^ 31 :=
    numLines_replicate (2 ^ 31) (Nat.pos_pow_of_pos 31 (by decide))
  have hneg : wrapInt32 ((numLines (List.replicate (2 ^ 31) newline) : Nat) : Int) < 0 := by
    rw [hnum]
    exact wrapInt32_overflow
  refine ⟨hnum, scanPass_large _ 1 hneg, ?_⟩
  rw [main_accepted insertionSort _ _ (List.replicate (2 ^ 31) newline) rfl (by decide)
    (Or.inl rfl) rfl, if_pos hneg]

/-- C3: every run ends, and the records it wrote to the index file are in
non-decreasing order of key: no record has a key smaller than the key of the
record just before it. -/
theorem index_sorted (sort : (Record → Record → Bool) → List Record → List Record)
    (hsort : StdSort sort) (env : Env) (a : Args) :
    ∃ run, main sort env a = some run ∧
      ∀ recs, run.index = some recs →
        ∀ (i : Nat) (h : i + 1 < recs.length),
          strLt (recs.get ⟨i + 1, h⟩).key (recs.get ⟨i, Nat.lt_of_succ_lt h⟩).key = false := by
  have key : ∀ v recs, (if env.indexWritable then some (sort Record.lt v) else none) = some recs →
      ∀ (i : Nat) (h : i + 1 < recs.length),
        strLt (recs.get ⟨i + 1, h⟩).key (recs.get ⟨i, Nat.lt_of_succ_lt h⟩).key = false := by
    intro v recs hrecs i h
    split at hrecs
    · injection hrecs with hrecs
      subst hrecs
      have hp := (hsort Record.lt Record.lt_strictWeak v).2
      exact List.pairwise_iff_get.mp hp ⟨i, Nat.lt_of_succ_lt h⟩ ⟨i + 1, h⟩ (Nat.lt_succ_self i)
    · exact Option.noConfusion hrecs
  by_cases h5 : a.argc = 5
  · cases hk : keyLengthRejected a.keyLength with
    | true => exact ⟨_, main_keyLength sort env a h5 hk, fun _ h => Option.noConfusion h⟩
    | false =>
      by_cases hm : a.programMode = "-c" ∨ a.programMode = "-l"
      · cases hin : env.input with
        | none => exact ⟨_, main_unreadable sort env a h5 hk hm hin, fun _ h => Option.noConfusion h⟩
        | some data =>
          refine ⟨_, main_accepted sort env a data h5 hk hm hin, ?_⟩
          intro recs hrecs
          split at hrecs
          · exact Option.noConfusion hrecs
          · rw [afterScan_index] at hrecs
            exact key _ recs hrecs
      · exact ⟨_, main_mode sort env a h5 hk (not_or.mp hm), fun _ h => Option.noConfusion h⟩
  · exact ⟨_, main_argc sort env a h5, fun _ h => Option.noConfusion h⟩

/-- Witness of C3: the file `pear`, `fig`, `apple` with key length 2 is written
as `ap`, `fi`, `pe`. -/
theorem index_sorted_witness :
    (∃ run, main insertionSort ⟨some (ascii "pear\nfig\napple\n"), true, true, [], true⟩
        ⟨5, "-c", "in.txt", "out.idx", 2⟩ = some run ∧
      ∀ recs, run.index = some recs →
        ∀ (i : Nat) (h : i + 1 < recs.length),
          strLt (recs.get ⟨i + 1, h⟩).key (recs.get ⟨i, Nat.lt_of_succ_lt h⟩).key = false) ∧
    main insertionSort ⟨some (ascii "pear\nfig\napple\n"), true, true, [], true⟩
        ⟨5, "-c", "in.txt", "out.idx", 2⟩
      = some ⟨[], [.openInput, .openIndexOut],
          some [⟨ascii "ap", bitset64 9⟩, ⟨ascii "fi", bitset64 5⟩, ⟨ascii "pe", bitset64 0⟩]⟩ :=
  ⟨index_sorted insertionSort insertionSort_stdSort _ _, by decide⟩

/-- C4: the scan ends, and for every record it built the offset field is the
64-digit text of a position in the file such that seeking there and reading one
line gives a line whose first `min(keyLength, length)` bytes are the key. -/
theorem offset_correct (data : Str) (keyLength : Int) (h1 : 1 ≤ keyLength)
    (h2 : keyLength ≤ 24) :
    ∃ res, scanPass data keyLength = some res ∧
      (numLines data < 2 ^ 31 → ∃ built, res = .ok ((numLines data : Int), built)
        ∧ built.length = numLines data) ∧
      ∀ lineCount built, res = .ok (lineCount, built) → ∀ r ∈ built,
        ∃ off : Nat, r.offset = bitset64 (off : Int) ∧
          (data.length < 2 ^ 64 → binValue r.offset = off) ∧
          off < data.length ∧
          (getline ((IStream.opened data).seekg (off : Int)) []).2 = lineAt data off ∧
          (lineAt data off).take (min keyLength.toNat (lineAt data off).length) = r.key := by
  refine ⟨_, scanPass_eq data keyLength, scanResult_small data keyLength, ?_⟩
  intro lineCount built hres r hr
  generalize (wrapInt32 (numLines data)).toNat = n at hres
  split at hres
  · exact Except.noConfusion hres
  · injection hres with hres
    injection hres with _ hb
    subst hb
    obtain ⟨off, hoff, rfl⟩ := List.mem_map.mp hr
    have hlt := lineStarts_lt_length data off (List.mem_of_mem_take hoff)
    refine ⟨off, rfl, fun hsize => binValue_bitset64 off (by omega), hlt, ?_, ?_⟩
    · rw [seekg_opened]
      exact (getline_line data off []).1
    · rw [take_min_length]
      simp only [recordAt, sizeT_key h1 h2]

set_option maxRecDepth 100000 in
/-- Witness of C4: in the file `ab`, `abcdef` the line read at offset 3 is
`abcdef`. -/
theorem offset_correct_witness :
    (∃ res, scanPass (ascii "ab\nabcdef\n") 4 = some res ∧
      (numLines (ascii "ab\nabcdef\n") < 2 ^ 31 →
        ∃ built, res = .ok ((numLines (ascii "ab\nabcdef\n") : Int), built)
          ∧ built.length = numLines (ascii "ab\nabcdef\n")) ∧
      ∀ lineCount built, res = .ok (lineCount, built) → ∀ r ∈ built,
        ∃ off : Nat, r.offset = bitset64 (off : Int) ∧
          ((ascii "ab\nabcdef\n").length < 2 ^ 64 → binValue r.offset = off) ∧
          off < (ascii "ab\nabcdef\n").length ∧
          (getline ((IStream.opened (ascii "ab\nabcdef\n")).seekg (off : Int)) []).2
            = lineAt (ascii "ab\nabcdef\n") off ∧
          (lineAt (ascii "ab\nabcdef\n") off).take
            (min (4 : Int).toNat (lineAt (ascii "ab\nabcdef\n") off).length) = r.key) ∧
    (getline ((IStream.opened (ascii "ab\nabcdef\n")).seekg 3) []).2 = ascii "abcdef" :=
  ⟨offset_correct (ascii "ab\nabcdef\n") 4 (by decide) (by decide), by decide⟩

/-- C5: the key of a line is its first `min(keyLength, length)` bytes, a line
shorter than `keyLength` is its own key, `substr` and the scan loop throw
nothing, and the keys of the records built from a file are the lines of the file
cut at `keyLength`. -/
theorem key_extraction (keyLength : Int) (h1 : 1 ≤ keyLength) (h2 : keyLength ≤ 24) :
    (∀ line : Str,
      substr line 0 (sizeT keyLength) = .ok (line.take (min keyLength.toNat line.length)) ∧
      (line.take (min keyLength.toNat line.length)).length = min keyLength.toNat line.length ∧
      (line.length < keyLength.toNat → substr line 0 (sizeT keyLength) = .ok line)) ∧
    (∀ (n : Nat) (s : IStream) (cur : Str) (acc : List Record),
      ∃ v, scanLoop n keyLength s cur acc = .ok v) ∧
    (∀ data : Str, numLines data < 2 ^ 31 →
      ∃ built, scanPass data keyLength = some (.ok ((numLines data : Int), built)) ∧
        built.map (fun r => r.key)
          = (fileLines data).map (fun l => l.take (min keyLength.toNat l.length))) := by
  refine ⟨?_, fun n s cur acc => scanLoop_no_exception n keyLength s cur acc, ?_⟩
  · intro line
    refine ⟨?_, ?_, ?_⟩
    · rw [substr_zero, take_min_length, sizeT_key h1 h2]
    · rw [List.length_take]
      omega
    · intro h
      rw [substr_zero, sizeT_key h1 h2, List.take_of_length_le (by omega)]
  · intro data hN
    exact ⟨_, scanPass_small data keyLength hN, builtRecords_keys data keyLength h1 h2⟩

set_option maxRecDepth 100000 in
/-- Witness of C5: the file `ab`, `abcdef` with key length 4 gives the keys `ab`
and `abcd`. -/
theorem key_extraction_witness :
    ((∀ line : Str,
      substr line 0 (sizeT 4) = .ok (line.take (min (4 : Int).toNat line.length)) ∧
      (line.take (min (4 : Int).toNat line.length)).length = min (4 : Int).toNat line.length ∧
      (line.length < (4 : Int).toNat → substr line 0 (sizeT 4) = .ok line)) ∧
    (∀ (n : Nat) (s : IStream) (cur : Str) (acc : List Record),
      ∃ v, scanLoop n 4 s cur acc = .ok v) ∧
    (∀ data : Str, numLines data < 2 ^ 31 →
      ∃ built, scanPass data 4 = some (.ok ((numLines data : Int), built)) ∧
        built.map (fun r => r.key)
          = (fileLines data).map (fun l => l.take (min (4 : Int).toNat l.length)))) ∧
    scanPass (ascii "ab\nabcdef\n") 4
      = some (.ok (2, [⟨ascii "ab", bitset64 0⟩, ⟨ascii "abcd", bitset64 3⟩])) :=
  ⟨key_extraction 4 (by decide) (by decide), by decide⟩

set_option maxRecDepth 100000 in
/-- C6: the text written for an offset denotes that offset, and offsets below
`2 ^ 31` are converted back by `std::stoi`; from `2 ^ 31` on the conversion
throws `out_of_range`. The scan of a file whose second line starts at `2 ^ 31`
stores that offset, and the lookup of that record throws. -/
theorem offset_conversion_narrows :
    (∀ off : Nat, off < 2 ^ 64 → binValue (bitset64 (off : Int)) = off) ∧
    (∀ off : Nat, off < 2 ^ 31 → stoi (bitset64 (off : Int)) = .ok (off : Int)) ∧
    (∀ off : Nat, 2 ^ 31 ≤ off → off < 2 ^ 64 →
      stoi (bitset64 (off : Int)) = .error .out_of_range) ∧
    stoi (bitset64 (2 ^ 31 - 1)) = .ok (2 ^ 31 - 1) ∧
    stoi (bitset64 (2 ^ 31)) = .error .out_of_range ∧
    scanPass (List.replicate (2 ^ 31 - 1) 97 ++ newline :: (List.replicate 16 98 ++ [newline])) 16
      = some (.ok (2, [⟨List.replicate 16 97, bitset64 0⟩,
          ⟨List.replicate 16 98, bitset64 (2 ^ 31)⟩])) ∧
    lookupStep
        (IStream.opened
          (List.replicate (2 ^ 31 - 1) 97 ++ newline :: (List.replicate 16 98 ++ [newline])))
        16 ⟨List.replicate 16 98, bitset64 (2 ^ 31)⟩
      = .error .out_of_range := by
  refine ⟨binValue_bitset64, stoi_bitset64, stoi_bitset64_large, by decide, by decide, ?_, ?_⟩
  · have h := twoLines_scan (2 ^ 31 - 1) (by decide)
    have hc : ((2 ^ 31 - 1 + 1 : Nat) : Int) = 2 ^ 31 := by norm_num
    rw [hc] at h
    exact h
  · exact lookupStep_stoi_error _ 16 _ _ (by decide)

/-- C7, amended: the lookup loop has no handler of its own. When the lookup of
one record throws, the exception leaves the loop at that record: whatever the
records before it gave and whatever the records after it would give, the loop
ends with that exception and hands no record to the listing. -/
theorem lookup_failure_leaves_loop (data : Str) (keyLength : Int) (s : IStream)
    (hs : s.data = data) (before after : List Record) (r : Record) (e : Exc)
    (iViewVector : List Record)
    (hbefore : ∀ x ∈ before, ∃ p, lookupStep (IStream.opened data) keyLength x = .ok p)
    (hr : lookupStep (IStream.opened data) keyLength r = .error e) :
    lookupLoop s keyLength (before ++ r :: after) iViewVector = .error e := by
  induction before generalizing s iViewVector with
  | nil =>
    rw [List.nil_append, lookupLoop, lookupStep_opened, hs, hr]
  | cons x xs ih =>
    obtain ⟨p, hp⟩ := hbefore x (List.mem_cons_self _ _)
    have hx : lookupStep s keyLength x = .ok p := by
      rw [lookupStep_opened, hs, hp]
    have hd : p.1.data = data := by
      rw [← hs]
      exact lookupStep_data s keyLength x p hx
    rw [List.cons_append, lookupLoop, hx]
    exact ih p.1 hd _ (fun y hy => hbefore y (List.mem_cons_of_mem _ hy))

set_option maxRecDepth 100000 in
/-- Witness of C7 as amended: three lines of 22, 16 and 22 bytes with key length
20; the second record throws after the first was looked up. -/
theorem lookup_failure_leaves_loop_witness :
    lookupLoop
        (IStream.opened (ascii "aaaaaaaaaaaaaaaaaaaaaa\nbbbbbbbbbbbbbbbb\ncccccccccccccccccccccc\n"))
        20
        ([⟨ascii "aaaaaaaaaaaaaaaaaaaa", bitset64 0⟩]
          ++ ⟨ascii "bbbbbbbbbbbbbbbb", bitset64 23⟩
            :: [⟨ascii "cccccccccccccccccccc", bitset64 40⟩])
        []
      = .error .out_of_range :=
  lookup_failure_leaves_loop
    (ascii "aaaaaaaaaaaaaaaaaaaaaa\nbbbbbbbbbbbbbbbb\ncccccccccccccccccccccc\n") 20
    (IStream.opened (ascii "aaaaaaaaaaaaaaaaaaaaaa\nbbbbbbbbbbbbbbbb\ncccccccccccccccccccccc\n"))
    rfl [⟨ascii "aaaaaaaaaaaaaaaaaaaa", bitset64 0⟩]
    [⟨ascii "cccccccccccccccccccc", bitset64 40⟩] ⟨ascii "bbbbbbbbbbbbbbbb", bitset64 23⟩
    .out_of_range []
    (by
      intro x hx
      rw [List.mem_singleton] at hx
      subst hx
      exact ⟨(⟨ascii "aaaaaaaaaaaaaaaaaaaaaa\nbbbbbbbbbbbbbbbb\ncccccccccccccccccccccc\n", 23,
        false, false⟩, ⟨ascii "aaaaaaaaaaaaaaaaaaaa", ascii "aa"⟩), by decide⟩)
    (by decide)

set_option maxRecDepth 100000 in
/-- C7 as stated fails: with lines of 22, 16 and 22 bytes and key length 20 the
scan builds three records, already in key order; the lookup of the first gives
its line, the lookup of the second throws, the lookup of the third would give
its line; the loop over the three ends with the exception and no record. -/
theorem lookup_failure_counterexample :
    scanPass (ascii "aaaaaaaaaaaaaaaaaaaaaa\nbbbbbbbbbbbbbbbb\ncccccccccccccccccccccc\n") 20
      = some (.ok (3, [⟨ascii "aaaaaaaaaaaaaaaaaaaa", bitset64 0⟩,
          ⟨ascii "bbbbbbbbbbbbbbbb", bitset64 23⟩,
          ⟨ascii "cccccccccccccccccccc", bitset64 40⟩])) ∧
    insertionSort Record.lt [⟨ascii "aaaaaaaaaaaaaaaaaaaa", bitset64 0⟩,
        ⟨ascii "bbbbbbbbbbbbbbbb", bitset64 23⟩, ⟨ascii "cccccccccccccccccccc", bitset64 40⟩]
      = [⟨ascii "aaaaaaaaaaaaaaaaaaaa", bitset64 0⟩, ⟨ascii "bbbbbbbbbbbbbbbb", bitset64 23⟩,
          ⟨ascii "cccccccccccccccccccc", bitset64 40⟩] ∧
    lookupStep
        (IStream.opened (ascii "aaaaaaaaaaaaaaaaaaaaaa\nbbbbbbbbbbbbbbbb\ncccccccccccccccccccccc\n"))
        20 ⟨ascii "aaaaaaaaaaaaaaaaaaaa", bitset64 0⟩
      = .ok (⟨ascii "aaaaaaaaaaaaaaaaaaaaaa\nbbbbbbbbbbbbbbbb\ncccccccccccccccccccccc\n", 23,
          false, false⟩, ⟨ascii "aaaaaaaaaaaaaaaaaaaa", ascii "aa"⟩) ∧
    lookupStep
        (IStream.opened (ascii "aaaaaaaaaaaaaaaaaaaaaa\nbbbbbbbbbbbbbbbb\ncccccccccccccccccccccc\n"))
        20 ⟨ascii "bbbbbbbbbbbbbbbb", bitset64 23⟩
      = .error .out_of_range ∧
    lookupStep
        (IStream.opened (ascii "aaaaaaaaaaaaaaaaaaaaaa\nbbbbbbbbbbbbbbbb\ncccccccccccccccccccccc\n"))
        20 ⟨ascii "cccccccccccccccccccc", bitset64 40⟩
      = .ok (⟨ascii "aaaaaaaaaaaaaaaaaaaaaa\nbbbbbbbbbbbbbbbb\ncccccccccccccccccccccc\n", 63,
          false, false⟩, ⟨ascii "cccccccccccccccccccc", ascii "cc"⟩) ∧
    lookupLoop
        (IStream.opened (ascii "aaaaaaaaaaaaaaaaaaaaaa\nbbbbbbbbbbbbbbbb\ncccccccccccccccccccccc\n"))
        20 [⟨ascii "aaaaaaaaaaaaaaaaaaaa", bitset64 0⟩, ⟨ascii "bbbbbbbbbbbbbbbb", bitset64 23⟩,
          ⟨ascii "cccccccccccccccccccc", bitset64 40⟩] []
      = .error .out_of_range := by
  decide

/-- C8: a run opens no file, writes no index and prints one of the three
diagnostics exactly when the argument count is not 5, or the key length is
below 1 or above 24, or the mode is neither `-c` nor `-l`; the test written with
the bitwise or agrees with the logical one on every integer, so 1 and 24 pass
and 0 and 25 do not. -/
theorem argument_validation (sort : (Record → Record → Bool) → List Record → List Record)
    (env : Env) (a : Args) :
    (∃ run, main sort env a = some run ∧
      (run.files = [] ↔ (a.argc ≠ 5 ∨ a.keyLength < 1 ∨ a.keyLength > 24 ∨
        (a.programMode ≠ "-c" ∧ a.programMode ≠ "-l"))) ∧
      (run.files = [] → run.index = none ∧
        (run.out = [.text "Unexpected number of command line arguments, please try again ",
            .argCount a.argc] ∨
          run.out = [.text "Invalid key length provided, please provide length between 1 and 24. "] ∨
          run.out = [.text "Invalid program mode provided. Expected either -c or -l. "]))) ∧
    (∀ k : Int, keyLengthRejected k = true ↔ (k < 1 ∨ k > 24)) ∧
    keyLengthRejected 1 = false ∧ keyLengthRejected 24 = false ∧
    keyLengthRejected 0 = true ∧ keyLengthRejected 25 = true := by
  refine ⟨?_, keyLengthRejected_iff, by decide, by decide, by decide, by decide⟩
  by_cases h5 : a.argc = 5
  · cases hk : keyLengthRejected a.keyLength with
    | true =>
      refine ⟨_, main_keyLength sort env a h5 hk, ?_, ?_⟩
      · exact iff_of_true rfl (Or.inr (by
          rcases (keyLengthRejected_iff _).mp hk with h | h
          · exact Or.inl h
          · exact Or.inr (Or.inl h)))
      · exact fun _ => ⟨rfl, Or.inr (Or.inl rfl)⟩
    | false =>
      have hk1 : ¬ (a.keyLength < 1 ∨ a.keyLength > 24) := by
        rw [← keyLengthRejected_iff, hk]
        exact Bool.false_ne_true
      by_cases hm : a.programMode = "-c" ∨ a.programMode = "-l"
      · have hnot : ¬ (a.argc ≠ 5 ∨ a.keyLength < 1 ∨ a.keyLength > 24 ∨
            (a.programMode ≠ "-c" ∧ a.programMode ≠ "-l")) := by
          rintro (h | h | h | h)
          · exact h h5
          · exact hk1 (Or.inl h)
          · exact hk1 (Or.inr h)
          · rcases hm with hm | hm
            · exact h.1 hm
            · exact h.2 hm
        cases hin : env.input with
        | none =>
          refine ⟨_, main_unreadable sort env a h5 hk hm hin, ?_, ?_⟩
          · exact iff_of_false (List.cons_ne_nil _ _) hnot
          · exact fun h => absurd h (List.cons_ne_nil _ _)
        | some data =>
          refine ⟨_, main_accepted sort env a data h5 hk hm hin, ?_, ?_⟩
          · refine iff_of_false ?_ hnot
            split
            · exact List.cons_ne_nil _ _
            · exact afterScan_files _ _ _ _ _ _
          · intro h
            refine absurd h ?_
            split
            · exact List.cons_ne_nil _ _
            · exact afterScan_files _ _ _ _ _ _
      · have hm2 := not_or.mp hm
        refine ⟨_, main_mode sort env a h5 hk hm2, ?_, ?_⟩
        · exact iff_of_true rfl (Or.inr (Or.inr (Or.inr hm2)))
        · exact fun _ => ⟨rfl, Or.inr (Or.inr rfl)⟩
  · refine ⟨_, main_argc sort env a h5, ?_, ?_⟩
    · exact iff_of_true rfl (Or.inl h5)
    · exact fun _ => ⟨rfl, Or.inl rfl⟩

/-- C9: the scan ends, and the offsets of the records it built, in scan order,
start at 0, each is the one before it plus the length of the line that starts
there plus one, and they increase strictly. -/
theorem offsets_scan_order (data : Str) (keyLength : Int) :
    ∃ res, scanPass data keyLength = some res ∧
      (numLines data < 2 ^ 31 → ∃ built, res = .ok ((numLines data : Int), built)
        ∧ built.length = numLines data) ∧
      ∀ lineCount built, res = .ok (lineCount, built) →
        ∃ offs : List Nat, built.map (fun r => r.offset) = offs.map (fun o : Nat => bitset64 (o : Int)) ∧
          (data.length < 2 ^ 64 → built.map (fun r => binValue r.offset) = offs) ∧
          (built ≠ [] → offs.head? = some 0) ∧
          (∀ (i : Nat) (h : i + 1 < offs.length),
            offs.get ⟨i + 1, h⟩ = offs.get ⟨i, Nat.lt_of_succ_lt h⟩
              + (lineAt data (offs.get ⟨i, Nat.lt_of_succ_lt h⟩)).length + 1) ∧
          offs.Pairwise (fun x y => x < y) := by
  refine ⟨_, scanPass_eq data keyLength, scanResult_small data keyLength, ?_⟩
  · intro lineCount built hres
    generalize (wrapInt32 (numLines data)).toNat = n at hres
    split at hres
    · exact Except.noConfusion hres
    · injection hres with hres
      injection hres with _ hbuilt
      subst hbuilt
      refine ⟨(lineStarts data).take n, take_lineStarts_offsets data keyLength n,
        take_lineStarts_values data keyLength n, ?_, ?_,
        chain_increasing data _ (take_lineStarts_chain data n)⟩
      · intro hne
        exact take_lineStarts_head data n (fun h => hne (by rw [h]; rfl))
      · intro i h
        exact List.chain'_iff_get.mp (take_lineStarts_chain data n) i (by omega)

set_option maxRecDepth 100000 in
/-- C10: with an index file that opens neither for writing nor for reading, a run
in mode `-l` reports the failure and goes on: it tries to read the index, opens
the input again and prints the frame of the listing with a count of 0. -/
theorem write_failure_not_fatal :
    main insertionSort ⟨some (ascii "a\n"), false, false, [], true⟩
        ⟨5, "-l", "in.txt", "missing/out.idx", 1⟩
      = some ⟨[.text "Unble to open file for output", .text "Unable to read from file!",
          .text "Listing file using index: ", .text "Done listing file!", .recordCount 0,
          .text "Ending program!"],
        [.openInput, .openIndexOut, .openIndexIn, .reopenInput], none⟩ := by
  decide

end IndexGenerator
